import Mathlib

/-!
etx, an etcd historian: verification of the ingestion and query core.

A shallow embedding of the pure core of `watch.go`, `show.go` and `log.go`:

* `addOne` and the watched key range built by `watch`;
* `watchResult`, the application of one decoded watch message to the two SQLite tables
  `history` and `revtime` (both `insert or ignore`);
* `fillTo`, the gap scan over the distinct stored revisions;
* the SQL query of `show`;
* the key grouping and printing loop of `logStream`.

Conventions.  A Go `[]byte` and a Go `string` are both lists of bytes (`List Nat`, each
element below 256 where that matters).  An `int64` is an `Int`; the only arithmetic the
program performs on one (`lastRev - modRev` in `fillTo`) is wrapped explicitly.  A table is
the list of its rows in insertion order.  SQL statements are modelled on their success
path: a failing `Step` makes `watchResult` return the error and roll the savepoint back,
which leaves the store as it was.  A row that `insert or ignore` skips is no failure.
-/

/-! ## Part 1: definitions -/

/-! ### Byte strings -/

/-- A Go byte slice or string. -/
abbrev Bytes := List Nat

/-- Every element is a byte. -/
def isBytes (v : Bytes) : Prop := ∀ x ∈ v, x < 256

/-- Unsigned bytewise lexicographic order, strict (`bytes.Compare(a, b) < 0`). -/
def bytesLt : Bytes → Bytes → Bool
  | _, [] => false
  | [], _ :: _ => true
  | x :: xs, y :: ys => if x < y then true else if y < x then false else bytesLt xs ys

/-- Unsigned bytewise lexicographic order, non-strict. -/
def bytesLe (a b : Bytes) : Bool := !bytesLt b a

/-- The bytes of an ASCII literal. -/
def ascii (s : String) : Bytes := s.toList.map Char.toNat

/-! ### watch.go: `addOne` and the watch range -/

/-- Embedding of `addOne`: drop the trailing `0xff` bytes, then increment the last byte
(a `byte` increment wraps modulo 256). -/
def addOne (v : Bytes) : Bytes :=
  let v := v.rdropWhile (fun b => b == 0xff)
  if 0 < v.length then v.dropLast ++ [(v.getLastD 0 + 1) % 256] else v

/-- The `Key` and `RangeEnd` that `watch` puts in the create request for a key prefix. -/
def watchRange (keyPrefix : Bytes) : Bytes × Bytes := (keyPrefix, addOne keyPrefix)

/-- Membership of key `k` in the half-open range `[key, rangeEnd)`. -/
def inRange (range : Bytes × Bytes) (k : Bytes) : Bool :=
  bytesLe range.1 k && bytesLt k range.2

/-! ### watch.go: the store and `watchResult` -/

/-- The `KeyValue` of a watch event. -/
structure KeyValue where
  Key : Bytes
  ModRevision : Int
  Value : Bytes
deriving DecidableEq, Repr

/-- One event of a watch message; `Type_` is the JSON field `type`. -/
structure Event where
  Type_ : String
  KV : KeyValue
  PrevKV : KeyValue
deriving DecidableEq, Repr

/-- A decoded watch message: `result.header.revision` and `result.events`. -/
structure WatchResponse where
  Revision : Int
  Events : List Event
deriving DecidableEq, Repr

/-- A row of table `history`, primary key `(key, mod_revision)`. -/
structure HistoryRow where
  key : Bytes
  value : Bytes
  mod_revision : Int
deriving DecidableEq, Repr

/-- A row of table `revtime`, primary key `mod_revision`. -/
structure RevtimeRow where
  mod_revision : Int
  watch_time : Int
deriving DecidableEq, Repr

/-- The database: both tables, rows in insertion order. -/
structure Store where
  history : List HistoryRow
  revtime : List RevtimeRow
deriving DecidableEq, Repr

/-- Whether `history` holds a row with this primary key. -/
def hasHistory (h : List HistoryRow) (key : Bytes) (rev : Int) : Bool :=
  h.any (fun r => r.key == key && r.mod_revision == rev)

/-- Whether `revtime` holds a row with this primary key. -/
def hasRevtime (t : List RevtimeRow) (rev : Int) : Bool :=
  t.any (fun r => r.mod_revision == rev)

/-- The statement `insert or ignore into history (key, value, mod_revision)` with the
bindings of `SetBytes`.  A zero-length slice is bound as NULL and both columns are
`not null`; `insert or ignore` skips a row that violates `not null` just as it skips one
whose primary key is already there, and `Step` reports no error in either case. -/
def insertHistory (h : List HistoryRow) (key val : Bytes) (rev : Int) : List HistoryRow :=
  if key = [] ∨ val = [] then h
  else if hasHistory h key rev then h else h ++ [⟨key, val, rev⟩]

/-- The statement `insert or ignore into revtime (mod_revision, watch_time)`. -/
def insertRevtime (t : List RevtimeRow) (rev time : Int) : List RevtimeRow :=
  if hasRevtime t rev then t else t ++ [⟨rev, time⟩]

/-- One iteration of the event loop of `watchResult`.  The second component of the state
counts the calls of `time.Now()` made so far; `now i` is the reading of call `i`. -/
def applyEvent (now : Nat → Int) (st : Store × Nat) (ev : Event) : Store × Nat :=
  if ev.Type_ == "DELETE" then st
  else
    let h1 := insertHistory st.1.history ev.KV.Key ev.KV.Value ev.KV.ModRevision
    let h2 := if ev.PrevKV.ModRevision ≠ 0 then
        insertHistory h1 ev.PrevKV.Key ev.PrevKV.Value ev.PrevKV.ModRevision
      else h1
    let t := insertRevtime st.1.revtime ev.KV.ModRevision (now st.2)
    (⟨h2, t⟩, st.2 + 1)

/-- Embedding of `watchResult` after a successful decode: the store after the loop. -/
def watchResult (now : Nat → Int) (s : Store) (m : WatchResponse) : Store :=
  (m.Events.foldl (applyEvent now) (s, 0)).1

/-- A clock that reads `t` at every call. -/
def constClock (t : Int) : Nat → Int := fun _ => t

/-- Every `mod_revision` present in `history` has a row in `revtime`. -/
def historyCovered (s : Store) : Bool :=
  s.history.all (fun r => hasRevtime s.revtime r.mod_revision)

/-- The revisions listed by the query of `logStream`: those of `history join revtime on
history.mod_revision = revtime.mod_revision`, grouped and ordered descending. -/
def logRevisions (s : Store) : List Int :=
  (((s.history.filter (fun r => hasRevtime s.revtime r.mod_revision)).map
    (fun r => r.mod_revision)).dedup).insertionSort (fun x y => x ≥ y)

/-! ### watch.go: `fillTo` -/

/-- The open interval `(a, b)` of `fillTo`. -/
structure interval where
  a : Int
  b : Int
deriving DecidableEq, Repr

/-- Two's-complement wrap of an `int64` result. -/
def wrapInt64 (x : Int) : Int := (x + 2 ^ 63) % 2 ^ 64 - 2 ^ 63

/-- Rows of `select distinct mod_revision from history order by mod_revision desc`. -/
def distinctModRevisionsDesc (h : List HistoryRow) : List Int :=
  ((h.map (fun r => r.mod_revision)).dedup).insertionSort (fun x y => x ≥ y)

/-- The scan loop of `fillTo` over the remaining rows, with `lastRev` and `intervals`. -/
def fillToLoop : List Int → Int → List interval → List interval
  | [], _, intervals => intervals
  | modRev :: rest, lastRev, intervals =>
    let intervals :=
      if lastRev ≠ -1 then
        let diff := wrapInt64 (lastRev - modRev)
        if diff > 1 then intervals ++ [⟨modRev, lastRev⟩] else intervals
      else intervals
    fillToLoop rest modRev intervals

/-- The interval list `fillTo` has built when its loop ends. -/
def fillToIntervals (h : List HistoryRow) : List interval :=
  fillToLoop (distinctModRevisionsDesc h) (-1) []

/-- Embedding of `fillTo`: `nil` when there is no interval, else the error that carries
the intervals. -/
def fillTo (h : List HistoryRow) : Except (List interval) Unit :=
  if (fillToIntervals h).length = 0 then .ok () else .error (fillToIntervals h)

/-! ### show.go: the query of `show` -/

/-- A result row of `show`: `old` is `none` for SQL NULL. -/
structure kv where
  key : Bytes
  old : Option Bytes
  new : Bytes
deriving DecidableEq, Repr

/-- Rows of `select key, value as new from history where mod_revision = $rev`. -/
def showNewRows (history : List HistoryRow) (rev : Int) : List (Bytes × Bytes) :=
  (history.filter (fun r => r.mod_revision == rev)).map (fun r => (r.key, r.value))

/-- The order `mod_revision desc`, rows of equal revision by descending key. -/
def revKeyDesc (x y : HistoryRow) : Prop :=
  y.mod_revision < x.mod_revision ∨
    (y.mod_revision = x.mod_revision ∧ bytesLe y.key x.key = true)

/-- Decidability of `revKeyDesc`, for the sort. -/
instance revKeyDesc_decidable : DecidableRel revKeyDesc :=
  fun x y => inferInstanceAs (Decidable (y.mod_revision < x.mod_revision ∨
    (y.mod_revision = x.mod_revision ∧ bytesLe y.key x.key = true)))

/-- Rows of `select key, value as old from history where mod_revision < $rev and key in
(select key from history where mod_revision = $rev) order by mod_revision desc limit 1`.
SQL leaves the order of rows of equal `mod_revision` open; the query as SQLite runs it
returns the row of the greatest key among them, which `revKeyDesc` follows. -/
def showOldRows (history : List HistoryRow) (rev : Int) : List (Bytes × Bytes) :=
  let changed := (history.filter (fun r => r.mod_revision == rev)).map (fun r => r.key)
  let cand := history.filter (fun r => decide (r.mod_revision < rev) && changed.contains r.key)
  let sorted := cand.insertionSort revKeyDesc
  (sorted.take 1).map (fun r => (r.key, r.value))

/-- The rows `left join ... using (key)` produces for one left row. -/
def leftJoinOld (olds : List (Bytes × Bytes)) (row : Bytes × Bytes) : List kv :=
  match olds.filter (fun o => o.1 == row.1) with
  | [] => [⟨row.1, none, row.2⟩]
  | ms => ms.map (fun o => ⟨row.1, some o.2, row.2⟩)

/-- The result of the query of `show`, ordered by key. -/
def showQuery (history : List HistoryRow) (rev : Int) : List kv :=
  let joined := (showNewRows history rev).flatMap (leftJoinOld (showOldRows history rev))
  joined.insertionSort (fun x y => bytesLe x.key y.key = true)

/-- The prior value the specification asks for: the value of the record of `key` with the
greatest `mod_revision` below `rev`, if any. -/
def priorValue (history : List HistoryRow) (key : Bytes) (rev : Int) : Option Bytes :=
  let below := history.filter (fun r => r.key == key && decide (r.mod_revision < rev))
  (below.find? (fun r => below.all (fun r2 => decide (r2.mod_revision ≤ r.mod_revision)))).map
    (fun r => r.value)

/-- The primary key of `history`: no two rows share `(key, mod_revision)`. -/
def pkUnique (history : List HistoryRow) : Prop :=
  ∀ r1 ∈ history, ∀ r2 ∈ history,
    r1.key = r2.key → r1.mod_revision = r2.mod_revision → r1 = r2

/-! ### log.go: the key summary of `logStream` -/

/-- The call `strings.Split(s, sep)` for a separator of one byte. -/
def splitByte (sep : Nat) : Bytes → List Bytes
  | [] => [[]]
  | c :: cs =>
    if c = sep then [] :: splitByte sep cs
    else
      match splitByte sep cs with
      | [] => [[c]]
      | p :: ps => (c :: p) :: ps

/-- The call `strings.TrimPrefix(s, pfx)`. -/
def trimLeading (s pfx : Bytes) : Bytes :=
  if pfx.isPrefixOf s then s.drop pfx.length else s

/-- The Go map `byprefix`, as an association list in insertion order. -/
abbrev SuffixMap := List (Bytes × List Bytes)

/-- The read `byprefix[k]`; a missing key reads as the nil slice. -/
def mapGet : SuffixMap → Bytes → List Bytes
  | [], _ => []
  | (k2, vs) :: rest, k => if k2 = k then vs else mapGet rest k

/-- The update `byprefix[k] = append(byprefix[k], v)`. -/
def mapAppend : SuffixMap → Bytes → Bytes → SuffixMap
  | [], k, v => [(k, [v])]
  | (k2, vs) :: rest, k, v =>
    if k2 = k then (k2, vs ++ [v]) :: rest else (k2, vs) :: mapAppend rest k v

/-- One iteration of the loop over `keys` in `logStream`. -/
def groupStep (st : List Bytes × SuffixMap) (key : Bytes) : List Bytes × SuffixMap :=
  let parts := splitByte 47 key
  if parts.length < 4 then (st.1 ++ [key], st.2)
  else
    let pfx := [47] ++ parts.getD 1 [] ++ [47] ++ parts.getD 2 [] ++ [47]
    (st.1, mapAppend st.2 pfx (trimLeading key pfx))

/-- The inner printing loop over `suffixes`, from index `i`. -/
def printSuffixes : Nat → List Bytes → Bytes
  | _, [] => []
  | i, suffix :: rest =>
    (if i > 0 then ascii ", " else []) ++ suffix ++ printSuffixes (i + 1) rest

/-- What one iteration of the outer printing loop prints after the separator. -/
def printEntry ( byprefix : SuffixMap) (pfx : Bytes) : Bytes :=
  let suffixes := mapGet byprefix pfx
  if suffixes.length = 0 then pfx
  else if suffixes.length = 1 then pfx ++ suffixes.getD 0 []
  else pfx ++ ascii "\x7b" ++ printSuffixes 0 suffixes ++ ascii "\x7d"

/-- The outer printing loop over `prefixes`, from index `i`. -/
def printEntries ( byprefix : SuffixMap) : Nat → List Bytes → Bytes
  | _, [] => []
  | i, pfx :: rest =>
    (if i > 0 then ascii ", " else []) ++ printEntry byprefix pfx ++
      printEntries byprefix (i + 1) rest

/-- The key summary `logStream` prints for one result row, from the column `keys`: what is
printed after the revision and time columns and before the final newline.  The range
over the Go map `byprefix` visits its keys in an unspecified order, `mapOrder`. -/
def logSummary (mapOrder : List Bytes → List Bytes) (text : Bytes) : Bytes :=
  let keys := splitByte 9 text
  let st := keys.foldl groupStep ([], [])
  let pfxs := st.1 ++ mapOrder (st.2.map Prod.fst)
  let sorted := pfxs.insertionSort (fun a b => bytesLe a b = true)
  printEntries st.2 0 sorted

/-- The column `keys` as `logStream` reads it: `group_concat(history.key, '\t')` over
the keys of one revision.  The aggregate hands its result over as a NUL-terminated text,
so the column ends at the first NUL byte. -/
def groupConcat (keys : List Bytes) : Bytes :=
  (List.intercalate [9] keys).takeWhile (fun b => b != 0)

/-! ### Specification-side predicates -/

/-- The segments of a key after its leading slash. -/
def segments (key : Bytes) : List Bytes := splitByte 47 (key.drop 1)

/-- The key has fewer than three segments after the leading slash. -/
def isShortKey (key : Bytes) : Bool := (segments key).length < 3

/-- The two-segment head `/seg1/seg2/` of a key. -/
def twoSegment (key : Bytes) : Bytes :=
  [47] ++ (segments key).getD 0 [] ++ [47] ++ (segments key).getD 1 [] ++ [47]

/-- The entries of the summary: the short keys and each distinct two-segment head of the
other keys once, in ascending order. -/
def specEntries (keys : List Bytes) : List Bytes :=
  ((keys.filter isShortKey) ++
    ((keys.filter (fun k => !isShortKey k)).map twoSegment).dedup).insertionSort
      (fun a b => bytesLe a b = true)

/-- The keys of at least three segments with a given two-segment head, in input order. -/
def keyGroup (keys : List Bytes) (pfx : Bytes) : List Bytes :=
  keys.filter (fun k => !isShortKey k && twoSegment k == pfx)

/-- How the specification renders one entry: a short key as itself, a head with a single
key as that key, a head shared by several keys as `head{suffix1, suffix2, ...}`. -/
def specRender (keys : List Bytes) (entry : Bytes) : Bytes :=
  if entry ∈ keys.filter isShortKey then entry
  else
    match keyGroup keys entry with
    | [k] => k
    | ks => entry ++ ascii "\x7b" ++
        List.intercalate (ascii ", ") (ks.map (fun k => k.drop entry.length)) ++ ascii "\x7d"

/-- The summary the specification describes: the rendered entries separated by `, `. -/
def specSummary (keys : List Bytes) : Bytes :=
  List.intercalate (ascii ", ") ((specEntries keys).map (specRender keys))


/-- Revision `r` is stored in `history`. -/
def storedRev (h : List HistoryRow) (r : Int) : Prop := ∃ row ∈ h, row.mod_revision = r

/-- Adjacent pairs of a descending list that are more than one apart. -/
def gaps : List Int → List interval
  | [] => []
  | [_] => []
  | x :: y :: rest => (if x - y > 1 then [⟨y, x⟩] else []) ++ gaps (y :: rest)

/-- Growth of `history` with first write wins: old rows stay, and no row of the new table
reuses the primary key of an old row unless it is that old row. -/
def historyGrows (h h2 : List HistoryRow) : Prop :=
  (∀ row ∈ h, row ∈ h2) ∧
  (∀ row ∈ h2, hasHistory h row.key row.mod_revision = true → row ∈ h)

/-- Growth of `revtime` with first write wins. -/
def revtimeGrows (t t2 : List RevtimeRow) : Prop :=
  (∀ row ∈ t, row ∈ t2) ∧
  (∀ row ∈ t2, hasRevtime t row.mod_revision = true → row ∈ t)

/-- The insert of `(key, val, rev)` into `history` would be skipped: a NULL binding or a
primary key that is already there. -/
def insertSkipped (h : List HistoryRow) (key val : Bytes) (rev : Int) : Prop :=
  key = [] ∨ val = [] ∨ hasHistory h key rev = true

/-- An event all of whose writes would be skipped in the store. -/
def covered (s : Store) (ev : Event) : Prop :=
  ev.Type_ = "DELETE" ∨
    (insertSkipped s.history ev.KV.Key ev.KV.Value ev.KV.ModRevision ∧
     (ev.PrevKV.ModRevision ≠ 0 →
        insertSkipped s.history ev.PrevKV.Key ev.PrevKV.Value ev.PrevKV.ModRevision) ∧
     hasRevtime s.revtime ev.KV.ModRevision = true)

/-! ### Concrete inputs -/

/-- The empty database. -/
def emptyStore : Store := ⟨[], []⟩

/-- A message with one PUT of `/a` at revision 5 whose previous value is from revision 3. -/
def putWithPrev : WatchResponse :=
  ⟨5, [⟨"PUT", ⟨ascii "/a", 5, ascii "y"⟩, ⟨ascii "/a", 3, ascii "x"⟩⟩]⟩

/-- A message with one DELETE of `/a` at revision 5 whose previous value is from
revision 3. -/
def deleteWithPrev : WatchResponse :=
  ⟨5, [⟨"DELETE", ⟨ascii "/a", 5, []⟩, ⟨ascii "/a", 3, ascii "x"⟩⟩]⟩

/-- A message with one PUT of `/a` at revision 5 whose previous value, from revision 3,
is the empty string. -/
def putWithEmptyPrev : WatchResponse :=
  ⟨5, [⟨"PUT", ⟨ascii "/a", 5, ascii "y"⟩, ⟨ascii "/a", 3, []⟩⟩]⟩

/-- A message with one PUT of `/a` at revision 5 whose `prev_kv`, of revision 3, has an
empty key. -/
def putWithEmptyKeyPrev : WatchResponse :=
  ⟨5, [⟨"PUT", ⟨ascii "/a", 5, ascii "y"⟩, ⟨[], 3, ascii "x"⟩⟩]⟩

/-- A message with a PUT, a DELETE and a second PUT. -/
def mixedMessage : WatchResponse :=
  ⟨7, [⟨"PUT", ⟨ascii "/a", 5, ascii "y"⟩, ⟨ascii "/a", 3, ascii "x"⟩⟩,
       ⟨"DELETE", ⟨ascii "/b", 6, []⟩, ⟨ascii "/b", 2, ascii "p"⟩⟩,
       ⟨"PUT", ⟨ascii "/c", 7, ascii "z"⟩, ⟨[], 0, []⟩⟩]⟩

/-- Key `/a` at revisions 1 and 3. -/
def singleKeyHistory : List HistoryRow :=
  [⟨ascii "/a", ascii "x", 1⟩, ⟨ascii "/a", ascii "y", 3⟩]

/-- Keys `/a` and `/b` both changed at revision 3, with earlier records at 1 and 2. -/
def twoKeyHistory : List HistoryRow :=
  [⟨ascii "/a", ascii "x", 1⟩, ⟨ascii "/b", ascii "p", 2⟩,
   ⟨ascii "/a", ascii "y", 3⟩, ⟨ascii "/b", ascii "q", 3⟩]

/-- Revisions 0, 3, 4, 7 and 10, revision 3 with two keys. -/
def holedHistory : List HistoryRow :=
  [⟨[1], [5], 7⟩, ⟨[1], [5], 3⟩, ⟨[2], [5], 3⟩, ⟨[1], [5], 4⟩, ⟨[1], [5], 10⟩,
   ⟨[1], [5], 0⟩]

/-- Two keys without a tab, the first with a NUL byte after `/a`. -/
def nulKeys : List Bytes := [[47, 97, 0, 98, 47, 99, 47, 100], ascii "/q"]

/-- The keys of the grouping scenario of the specification. -/
def cdbKeys : List Bytes := [ascii "/cdb/node/1", ascii "/cdb/node/2", ascii "/cdb/other/3"]

/-! ## Part 2: theorems -/

/-! ### `addOne` and the watch range -/

theorem exists_split_of_not_all_ff (p : Bytes) (h : ∃ x ∈ p, x ≠ 255) :
    ∃ q c n, p = q ++ c :: List.replicate n 255 ∧ c ≠ 255 := by
  induction p using List.reverseRecOn with
  | nil => simp at h
  | append_singleton l a ih =>
    by_cases ha : a = 255
    · have h2 : ∃ x ∈ l, x ≠ 255 := by
        obtain ⟨x, hx, hne⟩ := h
        simp only [List.mem_append, List.mem_singleton] at hx
        rcases hx with hx | hx
        · exact ⟨x, hx, hne⟩
        · exact absurd (hx.trans ha) hne
      obtain ⟨q, c, n, hq, hc⟩ := ih h2
      refine ⟨q, c, n + 1, ?_, hc⟩
      rw [hq, ha, List.replicate_add n 1 255]
      simp
    · exact ⟨l, a, 0, by simp, ha⟩

theorem rdropWhile_split (q : Bytes) (c n : Nat) (hc : c ≠ 255) :
    (q ++ c :: List.replicate n 255).rdropWhile (fun b => b == 0xff) = q ++ [c] := by
  induction n with
  | zero =>
    simp only [List.replicate_zero]
    rw [List.rdropWhile_concat_neg]
    simpa using hc
  | succ n ih =>
    rw [List.replicate_add n 1 255, List.replicate_one, ← List.cons_append,
      ← List.append_assoc, List.rdropWhile_concat_pos _ _ _ (by simp)]
    exact ih

theorem addOne_split (q : Bytes) (c n : Nat) (hc : c ≠ 255) :
    addOne (q ++ c :: List.replicate n 255) = q ++ [(c + 1) % 256] := by
  unfold addOne
  simp only [rdropWhile_split q c n hc]
  simp

theorem addOne_all_ff (n : Nat) : addOne (List.replicate n 255) = [] := by
  have h : (List.replicate n 255).rdropWhile (fun b => b == 0xff) = [] := by
    induction n with
    | zero => rfl
    | succ n ih =>
      rw [List.replicate_add n 1 255, List.replicate_one,
        List.rdropWhile_concat_pos _ _ _ (by simp)]
      exact ih
  unfold addOne
  simp only [h]
  rfl

theorem not_bytesLt_replicate (n : Nat) (ys : Bytes) (hys : isBytes ys) :
    bytesLt ys (List.replicate n 255) = false ↔ List.replicate n 255 <+: ys := by
  induction n generalizing ys with
  | zero => cases ys <;> simp [bytesLt]
  | succ n ih =>
    cases ys with
    | nil => simp [bytesLt, List.replicate_succ]
    | cons y ys =>
      have hy : y < 256 := hys y (by simp)
      have hys2 : isBytes ys := fun x hx => hys x (by simp [hx])
      simp only [List.replicate_succ, bytesLt, List.cons_prefix_cons]
      by_cases h1 : y < 255
      · simp [h1]; omega
      · have : y = 255 := by omega
        subst this
        simp [ih ys hys2]

theorem inRange_split (q : Bytes) (c n : Nat) (hc : c < 255) (k : Bytes) (hk : isBytes k) :
    inRange (q ++ c :: List.replicate n 255, q ++ [(c + 1) % 256]) k = true ↔
      (q ++ c :: List.replicate n 255) <+: k := by
  have hc1 : (c + 1) % 256 = c + 1 := by omega
  rw [hc1]
  induction q generalizing k with
  | nil =>
    cases k with
    | nil => simp [inRange, bytesLe, bytesLt]
    | cons y ys =>
      have hys2 : isBytes ys := fun x hx => hk x (by simp [hx])
      have := not_bytesLt_replicate n ys hys2
      simp only [inRange, bytesLe, List.nil_append, bytesLt, List.cons_prefix_cons,
        Bool.and_eq_true, Bool.not_eq_true']
      by_cases h1 : y < c
      · simp [h1]; omega
      · by_cases h2 : c < y
        · simp [h1, h2]; omega
        · have : y = c := by omega
          subst this
          simp [this]
  | cons x q ih =>
    cases k with
    | nil => simp [inRange, bytesLe, bytesLt]
    | cons y ys =>
      have hys2 : isBytes ys := fun x hx => hk x (by simp [hx])
      have := ih ys hys2
      simp only [inRange, bytesLe, Bool.and_eq_true, Bool.not_eq_true'] at this
      simp only [inRange, bytesLe, List.cons_append, bytesLt, List.cons_prefix_cons,
        Bool.and_eq_true, Bool.not_eq_true']
      by_cases h1 : y < x
      · simp [h1]; omega
      · by_cases h2 : x < y
        · simp [h1, h2]; omega
        · have : y = x := by omega
          subst this
          simp [this]

theorem bytesLt_split (q : Bytes) (c : Nat) (r : Bytes) :
    bytesLt (q ++ c :: r) (q ++ [c + 1]) = true := by
  induction q with
  | nil => simp [bytesLt]
  | cons x q ih => simp [bytesLt, ih]

/-- C3: for a prefix `p` with at least one byte other than 0xFF and any key `k`,
`p <= k < addOne p` in bytewise lexicographic order exactly when `p` is a prefix of `k`;
so the range `[Key, RangeEnd)` that `watch` requests is the set of keys with the prefix. -/
theorem watch_range_is_prefix_set (p k : Bytes) (hp : isBytes p) (hk : isBytes k)
    (hne : ∃ x ∈ p, x ≠ 255) :
    ((bytesLe p k = true ∧ bytesLt k (addOne p) = true) ↔ p <+: k) ∧
    (inRange (watchRange p) k = true ↔ p <+: k) := by
  obtain ⟨q, c, n, hq, hc⟩ := exists_split_of_not_all_ff p hne
  have hc2 : c < 255 := by
    have : c < 256 := hp c (by rw [hq]; simp)
    omega
  have h := inRange_split q c n hc2 k hk
  rw [← addOne_split q c n hc, ← hq] at h
  refine ⟨?_, h⟩
  rw [← h]
  simp [inRange]

/-- Witness of C3 at the prefix `/a/` and the key `/a/b`, with the range end of the
prefix bytes `[0x61, 0xFF]`. -/
theorem watch_range_is_prefix_set_witness :
    inRange (watchRange (ascii "/a/")) (ascii "/a/b") = true ∧
    addOne (ascii "/a/") = ascii "/a0" ∧ addOne [0x61, 0xff] = [0x62] :=
  ⟨(watch_range_is_prefix_set (ascii "/a/") (ascii "/a/b") (by unfold isBytes; decide)
      (by unfold isBytes; decide) (by decide)).2.mpr (by decide), by decide, by decide⟩

/-- C10 at its failing inputs: `addOne [0xFF]` is the empty slice, which is smaller than
`[0xFF]`, and `addOne []` is the empty slice again; the comment on `addOne` promises the
next key in lexicographic order. -/
theorem addOne_not_greater_on_ff :
    addOne [255] = [] ∧ ¬ (bytesLt [255] (addOne [255]) = true) ∧
    bytesLt (addOne [255]) [255] = true ∧
    addOne [] = [] ∧ ¬ (bytesLt [] (addOne []) = true) ∧
    inRange (watchRange [255]) [255] = false := by
  decide

/-- Where `addOne` does give a greater key: for a byte string with at least one byte other
than 0xFF, `addOne v` is strictly greater than `v`; for a byte string of 0xFF bytes only
(the empty one included) `addOne v` is empty. -/
theorem addOne_greater_unless_all_ff (v : Bytes) (hv : isBytes v) :
    ((∃ x ∈ v, x ≠ 255) → bytesLt v (addOne v) = true) ∧
    ((∀ x ∈ v, x = 255) → addOne v = []) := by
  constructor
  · intro hne
    obtain ⟨q, c, n, hq, hc⟩ := exists_split_of_not_all_ff v hne
    have hc2 : c < 256 := hv c (by rw [hq]; simp)
    have hc1 : (c + 1) % 256 = c + 1 := by omega
    rw [hq, addOne_split q c n hc, hc1]
    exact bytesLt_split q c _
  · intro hall
    rw [List.eq_replicate_of_mem hall]
    exact addOne_all_ff _

/-- The bound at `[0x61, 0xFF]`. -/
theorem addOne_greater_unless_all_ff_witness :
    bytesLt [0x61, 0xff] (addOne [0x61, 0xff]) = true :=
  (addOne_greater_unless_all_ff [0x61, 0xff] (by unfold isBytes; decide)).1 (by decide)

/-! ### The order of byte strings -/

theorem bytesLt_asymm (a b : Bytes) : bytesLt a b = true → bytesLt b a = false := by
  induction a generalizing b with
  | nil => cases b <;> simp [bytesLt]
  | cons x xs ih =>
    cases b with
    | nil => simp [bytesLt]
    | cons y ys =>
      simp only [bytesLt]
      by_cases h1 : x < y
      · have h2 : ¬ y < x := by omega
        simp [h1, h2]
      · by_cases h2 : y < x
        · simp [h1, h2]
        · simpa [h1, h2] using ih ys

theorem bytesLt_trichotomy (a b : Bytes) :
    bytesLt a b = false → bytesLt b a = false → a = b := by
  induction a generalizing b with
  | nil => cases b <;> simp [bytesLt]
  | cons x xs ih =>
    cases b with
    | nil => simp [bytesLt]
    | cons y ys =>
      simp only [bytesLt]
      by_cases h1 : x < y
      · simp [h1]
      · by_cases h2 : y < x
        · simp [h1, h2]
        · have : x = y := by omega
          subst this
          simpa [h1] using ih ys

theorem bytesLt_neg_trans (a b c : Bytes) :
    bytesLt a c = true → bytesLt a b = true ∨ bytesLt b c = true := by
  induction a generalizing b c with
  | nil =>
    cases c with
    | nil => simp [bytesLt]
    | cons z zs => cases b <;> simp [bytesLt]
  | cons x xs ih =>
    cases c with
    | nil => simp [bytesLt]
    | cons z zs =>
      cases b with
      | nil => simp [bytesLt]
      | cons y ys =>
        simp only [bytesLt]
        by_cases hxz : x < z
        · by_cases hxy : x < y
          · simp [hxy]
          · have hyz : y < z := by omega
            simp [hyz]
        · by_cases hzx : z < x
          · simp [hxz, hzx]
          · have hxz2 : x = z := by omega
            subst hxz2
            simp only [hxz, if_false]
            by_cases hxy : x < y
            · simp [hxy]
            · by_cases hyx : y < x
              · simp [hxy, hyx]
              · simpa [hxy, hyx] using ih ys zs

theorem bytesLe_total : IsTotal Bytes (fun a b => bytesLe a b = true) :=
  ⟨fun a b => by
    simp only [bytesLe, Bool.not_eq_true']
    cases h : bytesLt b a
    · exact Or.inl rfl
    · exact Or.inr (bytesLt_asymm b a h)⟩

theorem bytesLe_trans : IsTrans Bytes (fun a b => bytesLe a b = true) :=
  ⟨fun a b c hab hbc => by
    simp only [bytesLe, Bool.not_eq_true'] at *
    cases h : bytesLt c a
    · rfl
    · rcases bytesLt_neg_trans c b a h with h2 | h2
      · rw [h2] at hbc; exact absurd hbc (by simp)
      · rw [h2] at hab; exact absurd hab (by simp)⟩

theorem bytesLe_antisymm : IsAntisymm Bytes (fun a b => bytesLe a b = true) :=
  ⟨fun a b hab hba => by
    simp only [bytesLe, Bool.not_eq_true'] at *
    exact bytesLt_trichotomy a b hba hab⟩

theorem insertionSort_bytesLe_of_perm {l1 l2 : List Bytes} (h : l1.Perm l2) :
    l1.insertionSort (fun a b => bytesLe a b = true) =
      l2.insertionSort (fun a b => bytesLe a b = true) :=
  haveI := bytesLe_total
  haveI := bytesLe_trans
  haveI := bytesLe_antisymm
  List.eq_of_perm_of_sorted
    (((List.perm_insertionSort _ l1).trans h).trans (List.perm_insertionSort _ l2).symm)
    (List.sorted_insertionSort _ l1) (List.sorted_insertionSort _ l2)

/-! ### The store and `watchResult` -/

theorem hasHistory_iff (h : List HistoryRow) (key : Bytes) (rev : Int) :
    hasHistory h key rev = true ↔ ∃ row ∈ h, row.key = key ∧ row.mod_revision = rev := by
  simp [hasHistory]

theorem hasRevtime_iff (t : List RevtimeRow) (rev : Int) :
    hasRevtime t rev = true ↔ ∃ row ∈ t, row.mod_revision = rev := by
  simp [hasRevtime]

theorem historyGrows_refl (h : List HistoryRow) : historyGrows h h :=
  ⟨fun _ hr => hr, fun _ hr _ => hr⟩

theorem revtimeGrows_refl (t : List RevtimeRow) : revtimeGrows t t :=
  ⟨fun _ hr => hr, fun _ hr _ => hr⟩

theorem historyGrows_has {h h2 : List HistoryRow} (g : historyGrows h h2) {key : Bytes}
    {rev : Int} (hh : hasHistory h key rev = true) : hasHistory h2 key rev = true := by
  rw [hasHistory_iff] at hh ⊢
  obtain ⟨row, hrow, hk⟩ := hh
  exact ⟨row, g.1 row hrow, hk⟩

theorem revtimeGrows_has {t t2 : List RevtimeRow} (g : revtimeGrows t t2)
    {rev : Int} (hh : hasRevtime t rev = true) : hasRevtime t2 rev = true := by
  rw [hasRevtime_iff] at hh ⊢
  obtain ⟨row, hrow, hk⟩ := hh
  exact ⟨row, g.1 row hrow, hk⟩

theorem historyGrows_trans {h1 h2 h3 : List HistoryRow} (a : historyGrows h1 h2)
    (b : historyGrows h2 h3) : historyGrows h1 h3 :=
  ⟨fun row hr => b.1 row (a.1 row hr),
   fun row hr hh => a.2 row (b.2 row hr (historyGrows_has a hh)) hh⟩

theorem revtimeGrows_trans {t1 t2 t3 : List RevtimeRow} (a : revtimeGrows t1 t2)
    (b : revtimeGrows t2 t3) : revtimeGrows t1 t3 :=
  ⟨fun row hr => b.1 row (a.1 row hr),
   fun row hr hh => a.2 row (b.2 row hr (revtimeGrows_has a hh)) hh⟩

theorem insertHistory_of_skipped {h : List HistoryRow} {key val : Bytes} {rev : Int}
    (hh : insertSkipped h key val rev) : insertHistory h key val rev = h := by
  unfold insertHistory
  rcases hh with hk | hv | hh
  · simp [hk]
  · simp [hv]
  · simp [hh]

theorem mem_insertHistory {h : List HistoryRow} {key val : Bytes} {rev : Int}
    {row : HistoryRow} (hrow : row ∈ insertHistory h key val rev) :
    row ∈ h ∨ row = ⟨key, val, rev⟩ := by
  unfold insertHistory at hrow
  split at hrow
  · exact Or.inl hrow
  · split at hrow
    · exact Or.inl hrow
    · simpa using hrow

theorem insertRevtime_of_has {t : List RevtimeRow} {rev : Int}
    (hh : hasRevtime t rev = true) (time : Int) : insertRevtime t rev time = t := by
  simp [insertRevtime, hh]

theorem hasHistory_insertHistory (h : List HistoryRow) (key val : Bytes) (rev : Int)
    (hk : key ≠ []) (hv : val ≠ []) :
    hasHistory (insertHistory h key val rev) key rev = true := by
  unfold insertHistory
  rw [if_neg (by simp [hk, hv])]
  split
  · assumption
  · simp [hasHistory]

theorem insertSkipped_insertHistory (h : List HistoryRow) (key val : Bytes) (rev : Int) :
    insertSkipped (insertHistory h key val rev) key val rev := by
  by_cases hk : key = []
  · exact Or.inl hk
  · by_cases hv : val = []
    · exact Or.inr (Or.inl hv)
    · exact Or.inr (Or.inr (hasHistory_insertHistory h key val rev hk hv))

theorem hasRevtime_insertRevtime (t : List RevtimeRow) (rev time : Int) :
    hasRevtime (insertRevtime t rev time) rev = true := by
  unfold insertRevtime
  split
  · assumption
  · simp [hasRevtime]

theorem historyGrows_insertHistory (h : List HistoryRow) (key val : Bytes) (rev : Int) :
    historyGrows h (insertHistory h key val rev) := by
  unfold insertHistory
  split
  · exact historyGrows_refl h
  · split
    · exact historyGrows_refl h
    · rename_i hn
      refine ⟨fun row hr => by simp [hr], fun row hr hh => ?_⟩
      simp only [List.mem_append, List.mem_singleton] at hr
      rcases hr with hr | hr
      · exact hr
      · subst hr
        exact absurd hh hn

theorem insertSkipped_mono {h h2 : List HistoryRow} (g : historyGrows h h2)
    {key val : Bytes} {rev : Int} (hh : insertSkipped h key val rev) :
    insertSkipped h2 key val rev := by
  rcases hh with hk | hv | hh
  · exact Or.inl hk
  · exact Or.inr (Or.inl hv)
  · exact Or.inr (Or.inr (historyGrows_has g hh))

theorem revtimeGrows_insertRevtime (t : List RevtimeRow) (rev time : Int) :
    revtimeGrows t (insertRevtime t rev time) := by
  unfold insertRevtime
  split
  · exact revtimeGrows_refl t
  · rename_i hn
    refine ⟨fun row hr => by simp [hr], fun row hr hh => ?_⟩
    simp only [List.mem_append, List.mem_singleton] at hr
    rcases hr with hr | hr
    · exact hr
    · subst hr
      exact absurd hh hn

theorem applyEvent_delete (now : Nat → Int) (st : Store × Nat) (ev : Event)
    (hd : ev.Type_ = "DELETE") : applyEvent now st ev = st := by
  simp [applyEvent, hd]

theorem applyEvent_grows (now : Nat → Int) (st : Store × Nat) (ev : Event) :
    historyGrows st.1.history (applyEvent now st ev).1.history ∧
    revtimeGrows st.1.revtime (applyEvent now st ev).1.revtime := by
  unfold applyEvent
  split
  · exact ⟨historyGrows_refl _, revtimeGrows_refl _⟩
  · refine ⟨?_, revtimeGrows_insertRevtime _ _ _⟩
    dsimp only
    split
    · exact historyGrows_trans (historyGrows_insertHistory _ _ _ _)
        (historyGrows_insertHistory _ _ _ _)
    · exact historyGrows_insertHistory _ _ _ _

theorem foldl_applyEvent_grows (now : Nat → Int) (evs : List Event) (st : Store × Nat) :
    historyGrows st.1.history (evs.foldl (applyEvent now) st).1.history ∧
    revtimeGrows st.1.revtime (evs.foldl (applyEvent now) st).1.revtime := by
  induction evs generalizing st with
  | nil => exact ⟨historyGrows_refl _, revtimeGrows_refl _⟩
  | cons ev evs ih =>
    have a := applyEvent_grows now st ev
    have b := ih (applyEvent now st ev)
    exact ⟨historyGrows_trans a.1 b.1, revtimeGrows_trans a.2 b.2⟩

theorem applyEvent_covered_store (now : Nat → Int) (st : Store × Nat) (ev : Event)
    (hc : covered st.1 ev) : (applyEvent now st ev).1 = st.1 := by
  rcases hc with hd | ⟨h1, h2, h3⟩
  · rw [applyEvent_delete now st ev hd]
  · unfold applyEvent
    split
    · rfl
    · dsimp only
      rw [insertHistory_of_skipped h1, insertRevtime_of_has h3]
      split
      · rename_i hp
        rw [insertHistory_of_skipped (h2 hp)]
      · rfl

theorem covered_after_applyEvent (now : Nat → Int) (st : Store × Nat) (ev : Event) :
    covered (applyEvent now st ev).1 ev := by
  by_cases hd : ev.Type_ = "DELETE"
  · exact Or.inl hd
  · right
    have hb : (ev.Type_ == "DELETE") = false := by simpa using hd
    unfold applyEvent
    simp only [hb, Bool.false_eq_true, if_false]
    refine ⟨?_, ?_, hasRevtime_insertRevtime _ _ _⟩
    · split
      · exact insertSkipped_mono (historyGrows_insertHistory _ _ _ _)
          (insertSkipped_insertHistory _ _ _ _)
      · exact insertSkipped_insertHistory _ _ _ _
    · intro hp
      simp only [hp, ne_eq, not_false_eq_true, if_true]
      exact insertSkipped_insertHistory _ _ _ _

theorem covered_mono {s s2 : Store} (gh : historyGrows s.history s2.history)
    (gt : revtimeGrows s.revtime s2.revtime) {ev : Event} (hc : covered s ev) :
    covered s2 ev := by
  rcases hc with hd | ⟨h1, h2, h3⟩
  · exact Or.inl hd
  · exact Or.inr ⟨insertSkipped_mono gh h1, fun hp => insertSkipped_mono gh (h2 hp),
      revtimeGrows_has gt h3⟩

theorem covered_after_foldl (now : Nat → Int) (evs : List Event) (st : Store × Nat) :
    ∀ ev ∈ evs, covered (evs.foldl (applyEvent now) st).1 ev := by
  induction evs generalizing st with
  | nil => simp
  | cons e evs ih =>
    intro ev hev
    simp only [List.foldl_cons]
    rcases List.mem_cons.mp hev with h | h
    · subst h
      have g := foldl_applyEvent_grows now evs (applyEvent now st ev)
      exact covered_mono g.1 g.2 (covered_after_applyEvent now st ev)
    · exact ih (applyEvent now st e) ev h

theorem foldl_covered_store (now : Nat → Int) (evs : List Event) (st : Store × Nat)
    (hc : ∀ ev ∈ evs, covered st.1 ev) : (evs.foldl (applyEvent now) st).1 = st.1 := by
  induction evs generalizing st with
  | nil => rfl
  | cons e evs ih =>
    simp only [List.foldl_cons]
    have h1 := applyEvent_covered_store now st e (hc e (by simp))
    rw [ih (applyEvent now st e) (fun ev hev => by rw [h1]; exact hc ev (by simp [hev])), h1]

theorem foldl_applyEvent_filter (now : Nat → Int) (evs : List Event) (st : Store × Nat) :
    evs.foldl (applyEvent now) st =
      (evs.filter (fun ev => ev.Type_ != "DELETE")).foldl (applyEvent now) st := by
  induction evs generalizing st with
  | nil => rfl
  | cons e evs ih =>
    by_cases hd : e.Type_ = "DELETE"
    · simp [List.filter_cons, hd, applyEvent_delete now st e hd, ih]
    · simp [List.filter_cons, hd, ih]


/-- C4: applying `watchResult` for a message a second time, whatever the clock reads then,
leaves the store exactly as the first application left it (both tables, the recorded
`watch_time` included).  The clocks are arbitrary; constant readings `t1` and `t2` are the
case the claim names. -/
theorem watchResult_idempotent (now1 now2 : Nat → Int) (s : Store) (m : WatchResponse) :
    watchResult now2 (watchResult now1 s m) m = watchResult now1 s m := by
  unfold watchResult
  exact foldl_covered_store now2 m.Events _ (covered_after_foldl now1 m.Events (s, 0))

/-- C5 fails on a `prev_kv`: a PUT at revision 5 carrying a `prev_kv` of revision 3,
applied to the empty store, leaves a `history` record at revision 3 and no `revtime` row
for it, so `log` does not list revision 3. -/
theorem watchResult_prevKV_without_revtime :
    historyCovered emptyStore = true ∧
    watchResult (constClock 0) emptyStore putWithPrev =
      ⟨[⟨ascii "/a", ascii "y", 5⟩, ⟨ascii "/a", ascii "x", 3⟩], [⟨5, 0⟩]⟩ ∧
    historyCovered (watchResult (constClock 0) emptyStore putWithPrev) = false ∧
    logRevisions (watchResult (constClock 0) emptyStore putWithPrev) = [5] := by
  decide

theorem historyCovered_iff (s : Store) :
    historyCovered s = true ↔
      ∀ row ∈ s.history, hasRevtime s.revtime row.mod_revision = true := by
  simp [historyCovered]

/-- One loop iteration keeps: every `history` row has its `revtime` row or was written
from the `prev_kv` of a written event of `evs`. -/
theorem applyEvent_revtime_except_prevKV (now : Nat → Int) (evs : List Event)
    (st : Store × Nat) (ev : Event) (hev : ev ∈ evs)
    (hinv : ∀ row ∈ st.1.history, hasRevtime st.1.revtime row.mod_revision = true ∨
      ∃ e ∈ evs, e.Type_ ≠ "DELETE" ∧ e.PrevKV.ModRevision ≠ 0 ∧
        row = ⟨e.PrevKV.Key, e.PrevKV.Value, e.PrevKV.ModRevision⟩) :
    ∀ row ∈ (applyEvent now st ev).1.history,
      hasRevtime (applyEvent now st ev).1.revtime row.mod_revision = true ∨
      ∃ e ∈ evs, e.Type_ ≠ "DELETE" ∧ e.PrevKV.ModRevision ≠ 0 ∧
        row = ⟨e.PrevKV.Key, e.PrevKV.Value, e.PrevKV.ModRevision⟩ := by
  by_cases hd : ev.Type_ = "DELETE"
  · rw [applyEvent_delete now st ev hd]
    exact hinv
  · have hb : (ev.Type_ == "DELETE") = false := by simpa using hd
    have hold : ∀ row ∈ st.1.history,
        hasRevtime (insertRevtime st.1.revtime ev.KV.ModRevision (now st.2))
          row.mod_revision = true ∨
        ∃ e ∈ evs, e.Type_ ≠ "DELETE" ∧ e.PrevKV.ModRevision ≠ 0 ∧
          row = ⟨e.PrevKV.Key, e.PrevKV.Value, e.PrevKV.ModRevision⟩ := by
      intro row hrow
      rcases hinv row hrow with h | h
      · exact Or.inl (revtimeGrows_has (revtimeGrows_insertRevtime _ _ _) h)
      · exact Or.inr h
    have hkv : ∀ row ∈ insertHistory st.1.history ev.KV.Key ev.KV.Value ev.KV.ModRevision,
        hasRevtime (insertRevtime st.1.revtime ev.KV.ModRevision (now st.2))
          row.mod_revision = true ∨
        ∃ e ∈ evs, e.Type_ ≠ "DELETE" ∧ e.PrevKV.ModRevision ≠ 0 ∧
          row = ⟨e.PrevKV.Key, e.PrevKV.Value, e.PrevKV.ModRevision⟩ := by
      intro row hrow
      rcases mem_insertHistory hrow with h | h
      · exact hold row h
      · subst h
        exact Or.inl (hasRevtime_insertRevtime _ _ _)
    unfold applyEvent
    simp only [hb, Bool.false_eq_true, if_false]
    intro row hrow
    split at hrow
    · rename_i hp
      rcases mem_insertHistory hrow with h | h
      · exact hkv row h
      · exact Or.inr ⟨ev, hev, hd, hp, h⟩
    · exact hkv row hrow

theorem foldl_revtime_except_prevKV (now : Nat → Int) (all evs : List Event)
    (hsub : ∀ ev ∈ evs, ev ∈ all) (st : Store × Nat)
    (hinv : ∀ row ∈ st.1.history, hasRevtime st.1.revtime row.mod_revision = true ∨
      ∃ e ∈ all, e.Type_ ≠ "DELETE" ∧ e.PrevKV.ModRevision ≠ 0 ∧
        row = ⟨e.PrevKV.Key, e.PrevKV.Value, e.PrevKV.ModRevision⟩) :
    ∀ row ∈ (evs.foldl (applyEvent now) st).1.history,
      hasRevtime (evs.foldl (applyEvent now) st).1.revtime row.mod_revision = true ∨
      ∃ e ∈ all, e.Type_ ≠ "DELETE" ∧ e.PrevKV.ModRevision ≠ 0 ∧
        row = ⟨e.PrevKV.Key, e.PrevKV.Value, e.PrevKV.ModRevision⟩ := by
  induction evs generalizing st with
  | nil => exact hinv
  | cons e evs ih =>
    rw [List.foldl_cons]
    exact ih (fun ev hev => hsub ev (List.mem_cons_of_mem _ hev)) _
      (applyEvent_revtime_except_prevKV now all st e (hsub e (List.mem_cons_self _ _)) hinv)

/-- C5 as amended: from a store in which every `mod_revision` of `history` has a `revtime`
row, after `watchResult` every `history` record has a `revtime` row for its
`mod_revision` unless it is a record written from the `prev_kv` (of nonzero
`mod_revision`) of an event of the message that is not a DELETE; so the invariant is kept
by every message whose events that are not DELETE carry no `prev_kv`. -/
theorem watchResult_revtime_except_prevKV (now : Nat → Int) (s : Store)
    (m : WatchResponse) (hinv : historyCovered s = true) :
    (∀ row ∈ (watchResult now s m).history,
      hasRevtime (watchResult now s m).revtime row.mod_revision = true ∨
      ∃ ev ∈ m.Events, ev.Type_ ≠ "DELETE" ∧ ev.PrevKV.ModRevision ≠ 0 ∧
        row = ⟨ev.PrevKV.Key, ev.PrevKV.Value, ev.PrevKV.ModRevision⟩) ∧
    ((∀ ev ∈ m.Events, ev.Type_ ≠ "DELETE" → ev.PrevKV.ModRevision = 0) →
      historyCovered (watchResult now s m) = true) := by
  have hmain : ∀ row ∈ (watchResult now s m).history,
      hasRevtime (watchResult now s m).revtime row.mod_revision = true ∨
      ∃ ev ∈ m.Events, ev.Type_ ≠ "DELETE" ∧ ev.PrevKV.ModRevision ≠ 0 ∧
        row = ⟨ev.PrevKV.Key, ev.PrevKV.Value, ev.PrevKV.ModRevision⟩ := by
    unfold watchResult
    exact foldl_revtime_except_prevKV now m.Events m.Events (fun _ h => h) (s, 0)
      (fun row hrow => Or.inl ((historyCovered_iff s).mp hinv row hrow))
  refine ⟨hmain, fun hprev => ?_⟩
  rw [historyCovered_iff]
  intro row hrow
  rcases hmain row hrow with h | ⟨ev, hev, hty, hp, -⟩
  · exact h
  · exact absurd (hprev ev hev hty) hp

/-- Witness of the amended C5: a PUT, a DELETE and a PUT without `prev_kv` applied to a
store that holds revision 3 with its `revtime` row. -/
theorem watchResult_revtime_except_prevKV_witness :
    historyCovered (watchResult (constClock 8) ⟨[⟨ascii "/a", ascii "x", 3⟩], [⟨3, 1⟩]⟩
      ⟨7, [⟨"PUT", ⟨ascii "/a", 5, ascii "y"⟩, ⟨[], 0, []⟩⟩,
           ⟨"DELETE", ⟨ascii "/b", 6, []⟩, ⟨ascii "/b", 2, ascii "p"⟩⟩,
           ⟨"PUT", ⟨ascii "/c", 7, ascii "z"⟩, ⟨[], 0, []⟩⟩]⟩) = true :=
  (watchResult_revtime_except_prevKV (constClock 8)
    ⟨[⟨ascii "/a", ascii "x", 3⟩], [⟨3, 1⟩]⟩
    ⟨7, [⟨"PUT", ⟨ascii "/a", 5, ascii "y"⟩, ⟨[], 0, []⟩⟩,
         ⟨"DELETE", ⟨ascii "/b", 6, []⟩, ⟨ascii "/b", 2, ascii "p"⟩⟩,
         ⟨"PUT", ⟨ascii "/c", 7, ascii "z"⟩, ⟨[], 0, []⟩⟩]⟩ (by decide)).2 (by decide)

/-- C6 fails on a DELETE event, whose `prev_kv` of nonzero revision is not written, and on
a PUT whose `prev_kv` has an empty value or an empty key, which `insert or ignore` skips
as a NULL in a `not null` column. -/
theorem watchResult_prevKV_not_persisted :
    (∃ ev ∈ deleteWithPrev.Events, ev.PrevKV.ModRevision ≠ 0 ∧
      hasHistory (watchResult (constClock 0) emptyStore deleteWithPrev).history
        ev.PrevKV.Key ev.PrevKV.ModRevision = false) ∧
    (∃ ev ∈ putWithEmptyPrev.Events, ev.Type_ ≠ "DELETE" ∧ ev.PrevKV.ModRevision ≠ 0 ∧
      hasHistory (watchResult (constClock 0) emptyStore putWithEmptyPrev).history
        ev.PrevKV.Key ev.PrevKV.ModRevision = false) ∧
    watchResult (constClock 0) emptyStore putWithEmptyPrev =
      ⟨[⟨ascii "/a", ascii "y", 5⟩], [⟨5, 0⟩]⟩ ∧
    (∃ ev ∈ putWithEmptyKeyPrev.Events, ev.Type_ ≠ "DELETE" ∧ ev.PrevKV.ModRevision ≠ 0 ∧
      hasHistory (watchResult (constClock 0) emptyStore putWithEmptyKeyPrev).history
        ev.PrevKV.Key ev.PrevKV.ModRevision = false) := by
  decide

/-- C6 as amended: for each event of the message that is not a DELETE and whose `prev_kv`
has a nonzero `mod_revision` and a key and a value that are not empty, after
`watchResult` the `history` table holds a record with key `prev_kv.key` at `mod_revision`
`prev_kv.mod_revision`. -/
theorem watchResult_persists_prevKV (now : Nat → Int) (s : Store) (m : WatchResponse)
    (ev : Event) (hev : ev ∈ m.Events) (hty : ev.Type_ ≠ "DELETE")
    (hp : ev.PrevKV.ModRevision ≠ 0) (hk : ev.PrevKV.Key ≠ [])
    (hv : ev.PrevKV.Value ≠ []) :
    ∃ row ∈ (watchResult now s m).history,
      row.key = ev.PrevKV.Key ∧ row.mod_revision = ev.PrevKV.ModRevision := by
  rw [← hasHistory_iff]
  rcases covered_after_foldl now m.Events (s, 0) ev hev with hd | ⟨-, h2, -⟩
  · exact absurd hd hty
  · rcases h2 hp with h | h | h
    · exact absurd h hk
    · exact absurd h hv
    · exact h

/-- Witness of the amended C6 at the PUT of `putWithPrev`. -/
theorem watchResult_persists_prevKV_witness :
    ∃ row ∈ (watchResult (constClock 0) emptyStore putWithPrev).history,
      row.key = ascii "/a" ∧ row.mod_revision = 3 :=
  watchResult_persists_prevKV (constClock 0) emptyStore putWithPrev
    ⟨"PUT", ⟨ascii "/a", 5, ascii "y"⟩, ⟨ascii "/a", 3, ascii "x"⟩⟩
    (by decide) (by decide) (by decide) (by decide) (by decide)

/-- C7: `watchResult` only grows the store and the first write wins: every `history` row
and every `revtime` row present before is present after, and a row of the new table whose
primary key was already present before is one of the old rows (value and `watch_time`
unchanged). -/
theorem watchResult_grows_first_write_wins (now : Nat → Int) (s : Store)
    (m : WatchResponse) :
    (∀ row ∈ s.history, row ∈ (watchResult now s m).history) ∧
    (∀ row ∈ (watchResult now s m).history,
      (∃ old ∈ s.history, old.key = row.key ∧ old.mod_revision = row.mod_revision) →
        row ∈ s.history) ∧
    (∀ row ∈ s.revtime, row ∈ (watchResult now s m).revtime) ∧
    (∀ row ∈ (watchResult now s m).revtime,
      (∃ old ∈ s.revtime, old.mod_revision = row.mod_revision) → row ∈ s.revtime) := by
  have g := foldl_applyEvent_grows now m.Events (s, 0)
  refine ⟨g.1.1, fun row hr ho => g.1.2 row hr ((hasHistory_iff _ _ _).mpr ho), g.2.1,
    fun row hr ho => g.2.2 row hr ((hasRevtime_iff _ _).mpr ho)⟩

/-- Witness of C7: a message that rewrites `(/a, 5)` with another value leaves the stored
value as it was. -/
theorem watchResult_grows_first_write_wins_witness :
    (⟨ascii "/a", ascii "old", 5⟩ : HistoryRow) ∈
      (watchResult (constClock 9) ⟨[⟨ascii "/a", ascii "old", 5⟩], [⟨5, 1⟩]⟩
        putWithPrev).history :=
  (watchResult_grows_first_write_wins (constClock 9)
    ⟨[⟨ascii "/a", ascii "old", 5⟩], [⟨5, 1⟩]⟩ putWithPrev).1 _ (by decide)

/-- C9: DELETE events are not persisted: `watchResult` gives the same store for a message
and for the message with its DELETE events removed, and a message of DELETE events only
leaves the store unchanged. -/
theorem watchResult_ignores_delete (now : Nat → Int) (s : Store) (m : WatchResponse) :
    watchResult now s m =
      watchResult now s ⟨m.Revision, m.Events.filter (fun ev => ev.Type_ != "DELETE")⟩ ∧
    ((∀ ev ∈ m.Events, ev.Type_ = "DELETE") → watchResult now s m = s) := by
  constructor
  · unfold watchResult
    simp only
    rw [foldl_applyEvent_filter]
  · intro hall
    unfold watchResult
    exact foldl_covered_store now m.Events (s, 0) (fun ev hev => Or.inl (hall ev hev))

/-- Witness of C9 at a message of one DELETE event and at a message that mixes PUT and
DELETE events. -/
theorem watchResult_ignores_delete_witness :
    watchResult (constClock 0) emptyStore deleteWithPrev = emptyStore ∧
    watchResult (constClock 0) emptyStore mixedMessage =
      watchResult (constClock 0) emptyStore
        ⟨7, [⟨"PUT", ⟨ascii "/a", 5, ascii "y"⟩, ⟨ascii "/a", 3, ascii "x"⟩⟩,
             ⟨"PUT", ⟨ascii "/c", 7, ascii "z"⟩, ⟨[], 0, []⟩⟩]⟩ :=
  ⟨(watchResult_ignores_delete (constClock 0) emptyStore deleteWithPrev).2 (by decide),
   (watchResult_ignores_delete (constClock 0) emptyStore mixedMessage).1⟩

/-- Every event that is written gets the `revtime` row of its `kv` revision, and its
`history` row when key and value are not empty. -/
theorem watchResult_records_kv_time (now : Nat → Int) (s : Store) (m : WatchResponse)
    (ev : Event) (hev : ev ∈ m.Events) (hty : ev.Type_ ≠ "DELETE") :
    hasRevtime (watchResult now s m).revtime ev.KV.ModRevision = true ∧
    (ev.KV.Key ≠ [] → ev.KV.Value ≠ [] →
      hasHistory (watchResult now s m).history ev.KV.Key ev.KV.ModRevision = true) := by
  rcases covered_after_foldl now m.Events (s, 0) ev hev with hd | ⟨h1, -, h3⟩
  · exact absurd hd hty
  · refine ⟨h3, fun hk hv => ?_⟩
    rcases h1 with h | h | h
    · exact absurd h hk
    · exact absurd h hv
    · exact h

/-! ### `fillTo` -/

theorem wrapInt64_sub_of_nonneg (x y : Int) (hx : 0 ≤ x ∧ x < 2 ^ 63) (hy : 0 ≤ y ∧ y < 2 ^ 63) :
    wrapInt64 (x - y) = x - y := by
  unfold wrapInt64
  have h1 : (0 : Int) ≤ x - y + 2 ^ 63 := by omega
  have h2 : x - y + 2 ^ 63 < 2 ^ 64 := by omega
  rw [Int.emod_eq_of_lt h1 h2]
  omega

theorem fillToLoop_eq_gaps (l : List Int) (last : Int) (acc : List interval)
    (hlast : 0 ≤ last ∧ last < 2 ^ 63) (hl : ∀ x ∈ l, 0 ≤ x ∧ x < 2 ^ 63) :
    fillToLoop l last acc = acc ++ gaps (last :: l) := by
  induction l generalizing last acc with
  | nil => simp [fillToLoop, gaps]
  | cons x rest ih =>
    have hx := hl x (by simp)
    have hne : last ≠ -1 := by omega
    simp only [fillToLoop, hne, ne_eq, not_false_eq_true, if_true,
      wrapInt64_sub_of_nonneg last x hlast hx]
    rw [ih x _ hx (fun y hy => hl y (by simp [hy]))]
    simp only [gaps]
    split <;> simp

theorem fillToLoop_start (l : List Int) (hl : ∀ x ∈ l, 0 ≤ x ∧ x < 2 ^ 63) :
    fillToLoop l (-1) [] = gaps l := by
  cases l with
  | nil => rfl
  | cons x rest =>
    simp only [fillToLoop, ne_eq, not_true_eq_false, if_false]
    rw [fillToLoop_eq_gaps rest x [] (hl x (by simp)) (fun y hy => hl y (by simp [hy]))]
    simp

theorem mem_gaps_iff (l : List Int) (hs : l.Sorted (fun x y => x > y)) (a b : Int) :
    (⟨a, b⟩ : interval) ∈ gaps l ↔
      a ∈ l ∧ b ∈ l ∧ b - a > 1 ∧ ∀ c ∈ l, ¬ (a < c ∧ c < b) := by
  induction l with
  | nil => simp [gaps]
  | cons x l ih =>
    cases l with
    | nil =>
      simp only [gaps, List.not_mem_nil, List.mem_singleton, false_iff]
      rintro ⟨rfl, rfl, h, -⟩
      omega
    | cons y rest =>
      have hs2 : (y :: rest).Sorted (fun x y => x > y) := hs.of_cons
      have hxy : ∀ z ∈ y :: rest, x > z := List.rel_of_sorted_cons hs
      have hyr : ∀ z ∈ rest, y > z := List.rel_of_sorted_cons hs2
      have ih2 := ih hs2
      simp only [gaps, List.mem_append]
      constructor
      · rintro (h | h)
        · split at h
          · rename_i hgap
            simp only [List.mem_singleton, interval.mk.injEq] at h
            obtain ⟨rfl, rfl⟩ := h
            refine ⟨by simp, by simp, hgap, ?_⟩
            intro c hc
            simp only [List.mem_cons] at hc
            rcases hc with rfl | rfl | hc
            · omega
            · omega
            · have := hyr c hc
              omega
          · simp at h
        · obtain ⟨ha, hb, hd, hn⟩ := ih2.mp h
          refine ⟨List.mem_cons_of_mem _ ha, List.mem_cons_of_mem _ hb, hd, ?_⟩
          intro c hc
          rcases List.mem_cons.mp hc with rfl | hc
          · have := hxy b hb
            omega
          · exact hn c hc
      · rintro ⟨ha, hb, hd, hn⟩
        rcases List.mem_cons.mp hb with hbx | hb2
        · rcases List.mem_cons.mp ha with hax | ha2
          · omega
          · rcases List.mem_cons.mp ha2 with hay | ha3
            · left
              subst hbx hay
              simp [hd]
            · exfalso
              have h1 := hyr a ha3
              have h2 := hxy y (by simp)
              exact hn y (by simp) ⟨h1, by omega⟩
        · rcases List.mem_cons.mp ha with hax | ha2
          · have := hxy b hb2
            omega
          · right
            exact ih2.mpr ⟨ha2, hb2, hd, fun c hc => hn c (List.mem_cons_of_mem _ hc)⟩

theorem gaps_map_b_sublist (l : List Int) : ((gaps l).map (fun i => i.b)).Sublist l := by
  induction l with
  | nil => simp [gaps]
  | cons x l ih =>
    cases l with
    | nil => simp [gaps]
    | cons y rest =>
      simp only [gaps, List.map_append]
      split
      · simpa using ih
      · simpa using ih.trans (List.sublist_cons_self x (y :: rest))

theorem gaps_nodup (l : List Int) (hn : l.Nodup) : (gaps l).Nodup :=
  List.Nodup.of_map _ (List.Nodup.sublist (gaps_map_b_sublist l) hn)

theorem mem_distinctModRevisionsDesc (h : List HistoryRow) (r : Int) :
    r ∈ distinctModRevisionsDesc h ↔ storedRev h r := by
  unfold distinctModRevisionsDesc storedRev
  rw [(List.perm_insertionSort _ _).mem_iff, List.mem_dedup, List.mem_map]

theorem distinctModRevisionsDesc_nodup (h : List HistoryRow) :
    (distinctModRevisionsDesc h).Nodup := by
  unfold distinctModRevisionsDesc
  exact (List.perm_insertionSort _ _).nodup_iff.mpr (List.nodup_dedup _)

theorem distinctModRevisionsDesc_sorted (h : List HistoryRow) :
    (distinctModRevisionsDesc h).Sorted (fun x y => x > y) := by
  have h1 : (distinctModRevisionsDesc h).Sorted (fun x y => x ≥ y) := by
    unfold distinctModRevisionsDesc
    exact List.sorted_insertionSort (fun x y : Int => x ≥ y) _
  have h2 := distinctModRevisionsDesc_nodup h
  unfold List.Sorted at h1 ⊢
  unfold List.Nodup at h2
  exact (h1.and h2).imp (fun ⟨hge, hne⟩ => lt_of_le_of_ne hge (Ne.symm hne))

theorem fillToIntervals_eq_gaps (h : List HistoryRow)
    (hr : ∀ row ∈ h, 0 ≤ row.mod_revision ∧ row.mod_revision < 2 ^ 63) :
    fillToIntervals h = gaps (distinctModRevisionsDesc h) := by
  unfold fillToIntervals
  apply fillToLoop_start
  intro x hx
  obtain ⟨row, hrow, rfl⟩ := (mem_distinctModRevisionsDesc h x).mp hx
  exact hr row hrow

/-- C2: when the stored revisions are non-negative `int64` values, the interval list of
`fillTo` holds exactly the pairs `(a, b)` of stored revisions with `b - a > 1` and no
stored revision strictly between them, each once; it is empty (and `fillTo` returns
`nil`) when the stored revisions are contiguous, and empty when fewer than two distinct
revisions are stored. -/
theorem fillTo_intervals_exact (h : List HistoryRow)
    (hr : ∀ row ∈ h, 0 ≤ row.mod_revision ∧ row.mod_revision < 2 ^ 63) :
    (∀ a b : Int, (⟨a, b⟩ : interval) ∈ fillToIntervals h ↔
        (storedRev h a ∧ storedRev h b ∧ b - a > 1 ∧
          ∀ c, storedRev h c → ¬ (a < c ∧ c < b))) ∧
    (fillToIntervals h).Nodup ∧
    ((∀ a b c, storedRev h a → storedRev h b → a < c → c < b → storedRev h c) →
        fillToIntervals h = [] ∧ fillTo h = .ok ()) ∧
    ((∀ a b, storedRev h a → storedRev h b → a = b) → fillToIntervals h = []) := by
  have key : ∀ a b : Int, (⟨a, b⟩ : interval) ∈ fillToIntervals h ↔
        (storedRev h a ∧ storedRev h b ∧ b - a > 1 ∧
          ∀ c, storedRev h c → ¬ (a < c ∧ c < b)) := by
    intro a b
    rw [fillToIntervals_eq_gaps h hr, mem_gaps_iff _ (distinctModRevisionsDesc_sorted h)]
    simp only [mem_distinctModRevisionsDesc]
  refine ⟨key, ?_, ?_, ?_⟩
  · rw [fillToIntervals_eq_gaps h hr]
    exact gaps_nodup _ (distinctModRevisionsDesc_nodup h)
  · intro hc
    have hnil : fillToIntervals h = [] := by
      rw [List.eq_nil_iff_forall_not_mem]
      rintro ⟨a, b⟩ hm
      obtain ⟨ha, hb, hd, hn⟩ := (key a b).mp hm
      exact hn (a + 1) (hc a b (a + 1) ha hb (by omega) (by omega)) ⟨by omega, by omega⟩
    exact ⟨hnil, by simp [fillTo, hnil]⟩
  · intro hc
    rw [List.eq_nil_iff_forall_not_mem]
    rintro ⟨a, b⟩ hm
    obtain ⟨ha, hb, hd, -⟩ := (key a b).mp hm
    have := hc a b ha hb
    omega

/-- Witness of C2 at a history with revisions 0, 3, 4, 7 and 10. -/
theorem fillTo_intervals_exact_witness :
    fillToIntervals holedHistory = [⟨7, 10⟩, ⟨4, 7⟩, ⟨0, 3⟩] ∧
    (fillToIntervals holedHistory).Nodup :=
  ⟨by decide, (fillTo_intervals_exact holedHistory (by decide)).2.1⟩

/-! ### `show` -/

theorem revKeyDesc_total : IsTotal HistoryRow revKeyDesc :=
  ⟨fun a b => by
    unfold revKeyDesc
    rcases lt_trichotomy a.mod_revision b.mod_revision with h | h | h
    · exact Or.inr (Or.inl h)
    · rcases bytesLe_total.total b.key a.key with hk | hk
      · exact Or.inl (Or.inr ⟨h.symm, hk⟩)
      · exact Or.inr (Or.inr ⟨h, hk⟩)
    · exact Or.inl (Or.inl h)⟩

theorem revKeyDesc_trans : IsTrans HistoryRow revKeyDesc :=
  ⟨fun a b c hab hbc => by
    unfold revKeyDesc at *
    rcases hab with h1 | ⟨h1, k1⟩
    · rcases hbc with h2 | ⟨h2, -⟩
      · exact Or.inl (lt_trans h2 h1)
      · exact Or.inl (by omega)
    · rcases hbc with h2 | ⟨h2, k2⟩
      · exact Or.inl (by omega)
      · exact Or.inr ⟨by omega, bytesLe_trans.trans _ _ _ k2 k1⟩⟩

/-- The first row of the descending sort is a row of greatest revision. -/
theorem head_insertionSort_revKeyDesc (l : List HistoryRow) (x : HistoryRow)
    (rest : List HistoryRow) (h : l.insertionSort revKeyDesc = x :: rest) :
    x ∈ l ∧ ∀ y ∈ l, y.mod_revision ≤ x.mod_revision := by
  haveI := revKeyDesc_total
  haveI := revKeyDesc_trans
  have hs := List.sorted_insertionSort revKeyDesc l
  have hp := List.perm_insertionSort revKeyDesc l
  rw [h] at hs hp
  refine ⟨hp.mem_iff.mp (by simp), fun y hy => ?_⟩
  rcases List.mem_cons.mp (hp.mem_iff.mpr hy) with rfl | hy2
  · exact le_refl _
  · rcases List.rel_of_sorted_cons hs y hy2 with h1 | ⟨h1, -⟩
    · exact le_of_lt h1
    · exact le_of_eq h1

/-- With a single key changed at `rev`, the "old" value `show` pairs with it is the value
of its record of greatest revision below `rev`, and NULL when there is none. -/
theorem show_old_is_prior_when_one_key (history : List HistoryRow) (rev : Int) (k : Bytes)
    (hpk : pkUnique history)
    (hone : ∀ r ∈ history, r.mod_revision = rev → r.key = k) :
    ∀ row ∈ showQuery history rev, row.key = k ∧ row.old = priorValue history k rev := by
  intro row hrow
  unfold showQuery at hrow
  rw [(List.perm_insertionSort _ _).mem_iff, List.mem_flatMap] at hrow
  obtain ⟨nr, hnr, hrow⟩ := hrow
  simp only [showNewRows, List.mem_map, List.mem_filter, beq_iff_eq] at hnr
  obtain ⟨r0, ⟨hr0, hrev0⟩, rfl⟩ := hnr
  have hk0 : r0.key = k := hone r0 hr0 hrev0
  have hcand : history.filter (fun r => decide (r.mod_revision < rev) &&
      ((history.filter (fun r => r.mod_revision == rev)).map (fun r => r.key)).contains r.key)
      = history.filter (fun r => r.key == k && decide (r.mod_revision < rev)) := by
    apply List.filter_congr
    intro r _
    have : ((history.filter (fun r => r.mod_revision == rev)).map (fun r => r.key)).contains
        r.key = (r.key == k) := by
      rw [Bool.eq_iff_iff, List.contains_iff_exists_mem_beq]
      simp only [List.mem_map, List.mem_filter, beq_iff_eq, exists_exists_and_eq_and]
      constructor
      · rintro ⟨r2, ⟨h2, hrev2⟩, hkey⟩
        rw [hkey]
        exact hone r2 h2 hrev2
      · intro hkk
        exact ⟨r0, ⟨hr0, hrev0⟩, by rw [hk0, hkk]⟩
    rw [this, Bool.and_comm]
  unfold showOldRows at hrow
  simp only [hcand] at hrow
  unfold priorValue
  simp only
  generalize hbelow : history.filter (fun r => r.key == k && decide (r.mod_revision < rev))
    = below at hrow
  rcases hsort : below.insertionSort revKeyDesc with _ | ⟨x, rest⟩
  · have hnil : below = [] := by
      have hp := List.perm_insertionSort revKeyDesc below
      rw [hsort] at hp
      exact hp.symm.eq_nil
    rw [hsort] at hrow
    simp only [List.take_nil, List.map_nil, leftJoinOld, List.filter_nil,
      List.mem_singleton] at hrow
    subst hrow
    simp [hk0, hnil]
  · obtain ⟨hx, hmax⟩ := head_insertionSort_revKeyDesc below x rest hsort
    have hxk : x.key = k := by
      rw [← hbelow] at hx
      have h2 := (List.mem_filter.mp hx).2
      simp only [Bool.and_eq_true, beq_iff_eq, decide_eq_true_eq] at h2
      exact h2.1
    rw [hsort] at hrow
    simp only [List.take_succ_cons, List.take_zero, List.map_cons, List.map_nil, leftJoinOld,
      List.filter_cons, hxk, hk0, beq_self_eq_true, if_true, List.filter_nil,
      List.mem_singleton] at hrow
    subst hrow
    refine ⟨rfl, ?_⟩
    have hPx : below.all (fun r2 => decide (r2.mod_revision ≤ x.mod_revision)) = true := by
      simpa using hmax
    rcases hfind : below.find?
      (fun r => below.all (fun r2 => decide (r2.mod_revision ≤ r.mod_revision))) with _ | y
    · rw [List.find?_eq_none] at hfind
      exact absurd hPx (hfind x hx)
    · have hy : y ∈ below := List.mem_of_find?_eq_some hfind
      have hPy := List.find?_some hfind
      simp only [List.all_eq_true, decide_eq_true_eq] at hPy
      have hrev : x.mod_revision = y.mod_revision :=
        le_antisymm (hPy x hx) (hmax y hy)
      have hyk : y.key = k := by
        rw [← hbelow] at hy
        have h2 := (List.mem_filter.mp hy).2
        simp only [Bool.and_eq_true, beq_iff_eq, decide_eq_true_eq] at h2
        exact h2.1
      have hxy : x = y := by
        rw [← hbelow] at hx hy
        exact hpk x (List.mem_filter.mp hx).1 y (List.mem_filter.mp hy).1
          (hxk.trans hyk.symm) hrev
      rw [hfind, hxy]
      rfl

/-- C1 at its failing input: keys `/a` and `/b` both changed at revision 3, `/a` has a
record at revision 1 and `/b` one at revision 2.  The query of `show 3` pairs `/a` with
NULL, while the record of `/a` with the greatest revision below 3 has value `x`. -/
theorem show_old_is_null_for_second_key :
    showQuery twoKeyHistory 3 =
      [⟨ascii "/a", none, ascii "y"⟩, ⟨ascii "/b", some (ascii "p"), ascii "q"⟩] ∧
    priorValue twoKeyHistory (ascii "/a") 3 = some (ascii "x") := by
  decide

/-- The scenario of the specification with a single key: `show 3` gives old `x` and new
`y`, `show 1` gives old NULL and new `x`. -/
theorem show_single_key_scenario :
    showQuery singleKeyHistory 3 = [⟨ascii "/a", some (ascii "x"), ascii "y"⟩] ∧
    showQuery singleKeyHistory 1 = [⟨ascii "/a", none, ascii "x"⟩] := by
  decide

/-! ### The key summary of `logStream` -/

/-! ### splitByte -/

theorem splitByte_ne_nil (sep : Nat) (s : Bytes) : splitByte sep s ≠ [] := by
  cases s with
  | nil => simp [splitByte]
  | cons c cs =>
    simp only [splitByte]
    split
    · simp
    · split <;> simp

theorem splitByte_of_not_mem (sep : Nat) (s : Bytes) (h : sep ∉ s) :
    splitByte sep s = [s] := by
  induction s with
  | nil => rfl
  | cons c cs ih =>
    have hc : c ≠ sep := fun e => h (by simp [e])
    have hcs : sep ∉ cs := fun e => h (by simp [e])
    simp [splitByte, hc, ih hcs]

theorem splitByte_append_sep (sep : Nat) (a t : Bytes) (h : sep ∉ a) :
    splitByte sep (a ++ sep :: t) = a :: splitByte sep t := by
  induction a with
  | nil => simp [splitByte]
  | cons c cs ih =>
    have hc : c ≠ sep := fun e => h (by simp [e])
    have hcs : sep ∉ cs := fun e => h (by simp [e])
    simp [splitByte, hc, ih hcs]

/-- Either the separator is absent, or the string splits at its first occurrence. -/
theorem splitByte_cases (sep : Nat) (s : Bytes) :
    (sep ∉ s ∧ splitByte sep s = [s]) ∨
    (∃ a t, s = a ++ sep :: t ∧ sep ∉ a ∧ splitByte sep s = a :: splitByte sep t) := by
  by_cases h : sep ∈ s
  · right
    obtain ⟨a, t, hs, ha⟩ := List.eq_append_cons_of_mem h
    exact ⟨a, t, hs, ha, by rw [hs, splitByte_append_sep sep a t ha]⟩
  · exact Or.inl ⟨h, splitByte_of_not_mem sep s h⟩

theorem splitByte_intercalate (keys : List Bytes) (hne : keys ≠ [])
    (htab : ∀ k ∈ keys, 9 ∉ k) : splitByte 9 (List.intercalate [9] keys) = keys := by
  induction keys with
  | nil => exact absurd rfl hne
  | cons k ks ih =>
    cases ks with
    | nil =>
      simp only [List.intercalate, List.intersperse, List.flatten, List.append_nil]
      exact splitByte_of_not_mem 9 k (htab k (by simp))
    | cons k2 ks =>
      have h1 := ih (by simp) (fun x hx => htab x (by simp [hx]))
      have : List.intercalate [9] (k :: k2 :: ks) =
          k ++ 9 :: List.intercalate [9] (k2 :: ks) := by
        simp [List.intercalate, List.intersperse]
      rw [this, splitByte_append_sep 9 k _ (htab k (by simp)), h1]

/-! ### printing loops -/

theorem intercalate_cons_eq (sep x : Bytes) (rest : List Bytes) :
    List.intercalate sep (x :: rest) = x ++ (rest.map (fun s => sep ++ s)).flatten := by
  induction rest generalizing x with
  | nil => simp [List.intercalate, List.intersperse]
  | cons y r ih =>
    have h := ih y
    simp only [List.intercalate, List.intersperse, List.flatten, List.map_cons] at h ⊢
    rw [h]
    simp

theorem printSuffixes_succ (n : Nat) (l : List Bytes) :
    printSuffixes (n + 1) l = (l.map (fun s => ascii ", " ++ s)).flatten := by
  induction l generalizing n with
  | nil => simp [printSuffixes]
  | cons x r ih => simp [printSuffixes, ih]

theorem printSuffixes_zero (l : List Bytes) :
    printSuffixes 0 l = List.intercalate (ascii ", ") l := by
  cases l with
  | nil => simp [printSuffixes, List.intercalate]
  | cons x r => simp [printSuffixes, printSuffixes_succ, intercalate_cons_eq]

theorem printEntries_succ (m : SuffixMap) (n : Nat) (l : List Bytes) :
    printEntries m (n + 1) l = (l.map (fun e => ascii ", " ++ printEntry m e)).flatten := by
  induction l generalizing n with
  | nil => simp [printEntries]
  | cons x r ih => simp [printEntries, ih]

theorem printEntries_zero (m : SuffixMap) (l : List Bytes) :
    printEntries m 0 l = List.intercalate (ascii ", ") (l.map (printEntry m)) := by
  cases l with
  | nil => simp [printEntries, List.intercalate]
  | cons x r =>
    simp [printEntries, printEntries_succ, intercalate_cons_eq, List.map_map,
      Function.comp_def]

/-! ### the column `keys` -/

theorem mem_intercalate_tab (keys : List Bytes) (x : Nat)
    (hx : x ∈ List.intercalate [9] keys) : x = 9 ∨ ∃ k ∈ keys, x ∈ k := by
  cases keys with
  | nil => simp [List.intercalate] at hx
  | cons k ks =>
    rw [intercalate_cons_eq] at hx
    simp only [List.mem_append, List.mem_flatten, List.mem_map] at hx
    rcases hx with hx | ⟨l, ⟨k2, hk2, rfl⟩, hx⟩
    · exact Or.inr ⟨k, by simp, hx⟩
    · simp only [List.singleton_append, List.mem_cons] at hx
      rcases hx with hx | hx
      · exact Or.inl hx
      · exact Or.inr ⟨k2, by simp [hk2], hx⟩

/-- Without a NUL byte in the keys the column holds the whole aggregate. -/
theorem groupConcat_of_no_nul (keys : List Bytes) (hnul : ∀ k ∈ keys, 0 ∉ k) :
    groupConcat keys = List.intercalate [9] keys := by
  unfold groupConcat
  rw [List.takeWhile_eq_self_iff]
  intro x hx
  rcases mem_intercalate_tab keys x hx with h | ⟨k, hk, hxk⟩
  · simp [h]
  · have : x ≠ 0 := fun h0 => hnul k hk (h0 ▸ hxk)
    simpa using this

/-! ### the association list -/

theorem mapGet_mapAppend (m : SuffixMap) (k v k2 : Bytes) :
    mapGet (mapAppend m k v) k2 = if k = k2 then mapGet m k2 ++ [v] else mapGet m k2 := by
  induction m with
  | nil =>
    by_cases h : k = k2 <;> simp [mapGet, mapAppend, h]
  | cons e rest ih =>
    obtain ⟨k3, vs⟩ := e
    by_cases h3 : k3 = k
    · subst h3
      by_cases h : k3 = k2 <;> simp [mapGet, mapAppend, h]
    · by_cases h : k = k2
      · subst h
        simp [mapGet, mapAppend, h3, ih]
      · by_cases h4 : k3 = k2
        · subst h4
          simp [mapGet, mapAppend, h3, h]
        · simp [mapGet, mapAppend, h3, h, h4, ih]

theorem mem_keys_mapAppend (m : SuffixMap) (k v k2 : Bytes) :
    k2 ∈ (mapAppend m k v).map Prod.fst ↔ k2 = k ∨ k2 ∈ m.map Prod.fst := by
  induction m with
  | nil => simp [mapAppend]
  | cons e rest ih =>
    obtain ⟨k3, vs⟩ := e
    by_cases h3 : k3 = k
    · subst h3
      simp [mapAppend]
    · simp only [mapAppend, h3, if_false, List.map_cons, List.mem_cons, ih]
      tauto

theorem nodup_keys_mapAppend (m : SuffixMap) (k v : Bytes)
    (h : (m.map Prod.fst).Nodup) : ((mapAppend m k v).map Prod.fst).Nodup := by
  induction m with
  | nil => simp [mapAppend]
  | cons e rest ih =>
    obtain ⟨k3, vs⟩ := e
    by_cases h3 : k3 = k
    · subst h3
      simpa [mapAppend] using h
    · rw [List.map_cons, List.nodup_cons] at h
      simp only [mapAppend, h3, if_false, List.map_cons]
      refine List.nodup_cons.mpr ⟨?_, ih h.2⟩
      rw [mem_keys_mapAppend]
      rintro (hc | hc)
      · exact h3 hc
      · exact h.1 hc

theorem mapGet_eq_nil_of_not_mem (m : SuffixMap) (k : Bytes)
    (h : k ∉ m.map Prod.fst) : mapGet m k = [] := by
  induction m with
  | nil => rfl
  | cons e rest ih =>
    obtain ⟨k3, vs⟩ := e
    simp only [List.map_cons, List.mem_cons, not_or] at h
    simp [mapGet, Ne.symm h.1, ih h.2]

/-! ### keys that start with a slash -/

theorem segments_slash (t : Bytes) : segments (47 :: t) = splitByte 47 t := rfl

theorem splitByte_slash (t : Bytes) :
    splitByte 47 (47 :: t) = [] :: segments (47 :: t) := by
  simp [splitByte, segments]

/-- A key with at least three segments is its two-segment head followed by a rest. -/
theorem long_key_decomp (t : Bytes) (h : isShortKey (47 :: t) = false) :
    ∃ a b t2, 47 ∉ a ∧ 47 ∉ b ∧ twoSegment (47 :: t) = 47 :: a ++ 47 :: b ++ [47] ∧
      (47 :: t : Bytes) = twoSegment (47 :: t) ++ t2 := by
  simp only [isShortKey, segments_slash, decide_eq_false_iff_not, not_lt] at h
  rcases splitByte_cases 47 t with ⟨-, h1⟩ | ⟨a, t1, ht, ha, h1⟩
  · rw [h1] at h; simp at h
  · rcases splitByte_cases 47 t1 with ⟨-, h2⟩ | ⟨b, t2, ht1, hb, h2⟩
    · rw [h1, h2] at h; simp at h
    · have htwo : twoSegment (47 :: t) = 47 :: a ++ 47 :: b ++ [47] := by
        simp [twoSegment, segments_slash, h1, h2]
      refine ⟨a, b, t2, ha, hb, htwo, ?_⟩
      rw [htwo, ht, ht1]
      simp

theorem twoSegment_not_short (t : Bytes) (h : isShortKey (47 :: t) = false) :
    isShortKey (twoSegment (47 :: t)) = false := by
  obtain ⟨a, b, t2, ha, hb, htwo, -⟩ := long_key_decomp t h
  rw [htwo]
  have : (47 :: a ++ 47 :: b ++ [47] : Bytes) = 47 :: (a ++ 47 :: (b ++ 47 :: [])) := by simp
  rw [this]
  simp [isShortKey, segments_slash, splitByte_append_sep 47 a _ ha,
    splitByte_append_sep 47 b _ hb, splitByte]

theorem groupStep_short (st : List Bytes × SuffixMap) (t : Bytes)
    (h : isShortKey (47 :: t) = true) :
    groupStep st (47 :: t) = (st.1 ++ [47 :: t], st.2) := by
  simp only [isShortKey, decide_eq_true_eq] at h
  have : (splitByte 47 (47 :: t)).length < 4 := by
    rw [splitByte_slash]; simp; omega
  simp [groupStep, this]

theorem groupStep_long (st : List Bytes × SuffixMap) (t : Bytes)
    (h : isShortKey (47 :: t) = false) :
    groupStep st (47 :: t) =
      (st.1, mapAppend st.2 (twoSegment (47 :: t))
        ((47 :: t : Bytes).drop (twoSegment (47 :: t)).length)) := by
  obtain ⟨a, b, t2, ha, hb, htwo, hk⟩ := long_key_decomp t h
  simp only [isShortKey, decide_eq_false_iff_not, not_lt] at h
  have hlen : ¬ (splitByte 47 (47 :: t)).length < 4 := by
    rw [splitByte_slash]; simp; omega
  have hpfx : [47] ++ (splitByte 47 (47 :: t)).getD 1 [] ++ [47] ++
      (splitByte 47 (47 :: t)).getD 2 [] ++ [47] = twoSegment (47 :: t) := by
    rw [splitByte_slash]
    simp [twoSegment]
  have hpre : (twoSegment (47 :: t)).isPrefixOf (47 :: t) = true := by
    rw [List.isPrefixOf_iff_prefix]
    exact ⟨t2, hk.symm⟩
  simp only [groupStep, hlen, if_false, hpfx, trimLeading, hpre, if_true]

/-! ### the grouping loop -/

theorem twoSegment_append_drop (t : Bytes) (h : isShortKey (47 :: t) = false) :
    twoSegment (47 :: t) ++ (47 :: t : Bytes).drop (twoSegment (47 :: t)).length = 47 :: t := by
  obtain ⟨a, b, t2, -, -, -, hk⟩ := long_key_decomp t h
  have hd := congrArg (List.drop (twoSegment (47 :: t)).length) hk
  rw [List.drop_left] at hd
  rw [hd]
  exact hk.symm

theorem foldl_groupStep_fst (keys : List Bytes) (hs : ∀ k ∈ keys, ∃ t, k = 47 :: t)
    (st : List Bytes × SuffixMap) :
    (keys.foldl groupStep st).1 = st.1 ++ keys.filter isShortKey := by
  induction keys generalizing st with
  | nil => simp
  | cons k ks ih =>
    obtain ⟨t, rfl⟩ := hs _ (List.mem_cons_self _ _)
    have hs2 : ∀ k ∈ ks, ∃ t, k = 47 :: t := fun k hk => hs k (List.mem_cons_of_mem _ hk)
    rw [List.foldl_cons, ih hs2]
    cases h : isShortKey (47 :: t)
    · rw [groupStep_long st t h]
      simp [List.filter_cons, h]
    · rw [groupStep_short st t h]
      simp [List.filter_cons, h]

theorem foldl_groupStep_get (keys : List Bytes) (hs : ∀ k ∈ keys, ∃ t, k = 47 :: t)
    (st : List Bytes × SuffixMap) (p : Bytes) :
    mapGet (keys.foldl groupStep st).2 p =
      mapGet st.2 p ++ (keyGroup keys p).map (fun k => k.drop p.length) := by
  induction keys generalizing st with
  | nil => simp [keyGroup]
  | cons k ks ih =>
    obtain ⟨t, rfl⟩ := hs _ (List.mem_cons_self _ _)
    have hs2 : ∀ k ∈ ks, ∃ t, k = 47 :: t := fun k hk => hs k (List.mem_cons_of_mem _ hk)
    rw [List.foldl_cons, ih hs2]
    cases h : isShortKey (47 :: t)
    · rw [groupStep_long st t h]
      simp only [mapGet_mapAppend]
      by_cases hp : twoSegment (47 :: t) = p
      · subst hp
        simp [keyGroup, List.filter_cons, h]
      · simp [keyGroup, List.filter_cons, h, hp]
    · rw [groupStep_short st t h]
      simp [keyGroup, List.filter_cons, h]

theorem foldl_groupStep_mem (keys : List Bytes) (hs : ∀ k ∈ keys, ∃ t, k = 47 :: t)
    (st : List Bytes × SuffixMap) (p : Bytes) :
    p ∈ (keys.foldl groupStep st).2.map Prod.fst ↔
      p ∈ st.2.map Prod.fst ∨ ∃ k ∈ keys, isShortKey k = false ∧ twoSegment k = p := by
  induction keys generalizing st with
  | nil => simp
  | cons k ks ih =>
    obtain ⟨t, rfl⟩ := hs _ (List.mem_cons_self _ _)
    have hs2 : ∀ k ∈ ks, ∃ t, k = 47 :: t := fun k hk => hs k (List.mem_cons_of_mem _ hk)
    rw [List.foldl_cons, ih hs2]
    cases h : isShortKey (47 :: t)
    · rw [groupStep_long st t h]
      simp only [mem_keys_mapAppend, List.mem_cons, exists_eq_or_imp, h, true_and]
      constructor
      · rintro ((h1 | h1) | h1)
        · exact Or.inr (Or.inl h1.symm)
        · exact Or.inl h1
        · exact Or.inr (Or.inr h1)
      · rintro (h1 | h1 | h1)
        · exact Or.inl (Or.inr h1)
        · exact Or.inl (Or.inl h1.symm)
        · exact Or.inr h1
    · rw [groupStep_short st t h]
      simp [h]

theorem foldl_groupStep_nodup (keys : List Bytes) (hs : ∀ k ∈ keys, ∃ t, k = 47 :: t)
    (st : List Bytes × SuffixMap) (hn : (st.2.map Prod.fst).Nodup) :
    ((keys.foldl groupStep st).2.map Prod.fst).Nodup := by
  induction keys generalizing st with
  | nil => simpa using hn
  | cons k ks ih =>
    obtain ⟨t, rfl⟩ := hs _ (List.mem_cons_self _ _)
    have hs2 : ∀ k ∈ ks, ∃ t, k = 47 :: t := fun k hk => hs k (List.mem_cons_of_mem _ hk)
    rw [List.foldl_cons]
    apply ih hs2
    cases h : isShortKey (47 :: t)
    · rw [groupStep_long st t h]
      exact nodup_keys_mapAppend _ _ _ hn
    · rw [groupStep_short st t h]
      exact hn

theorem mem_keyGroup (keys : List Bytes) (p k : Bytes) :
    k ∈ keyGroup keys p ↔ k ∈ keys ∧ isShortKey k = false ∧ twoSegment k = p := by
  simp [keyGroup]

/-- Each entry is printed as the specification renders it. -/
theorem printEntry_eq_specRender (keys : List Bytes) (hs : ∀ k ∈ keys, ∃ t, k = 47 :: t)
    (e : Bytes) (he : e ∈ specEntries keys) :
    printEntry (keys.foldl groupStep ([], [])).2 e = specRender keys e := by
  have hget := foldl_groupStep_get keys hs ([], []) e
  simp only [mapGet, List.nil_append] at hget
  unfold specEntries at he
  rw [(List.perm_insertionSort _ _).mem_iff, List.mem_append, List.mem_dedup,
    List.mem_map] at he
  rcases he with he | ⟨k, hk, rfl⟩
  · have hshort : isShortKey e = true := (List.mem_filter.mp he).2
    have hgroup : keyGroup keys e = [] := by
      rw [List.eq_nil_iff_forall_not_mem]
      intro k hk
      obtain ⟨hkk, hlong, htwo⟩ := (mem_keyGroup keys e k).mp hk
      obtain ⟨t, rfl⟩ := hs k hkk
      have := twoSegment_not_short t hlong
      rw [htwo, hshort] at this
      exact absurd this (by simp)
    unfold printEntry specRender
    simp [hget, hgroup, he]
  · obtain ⟨hkk, hlong⟩ := List.mem_filter.mp hk
    have hlong2 : isShortKey k = false := by simpa using hlong
    obtain ⟨t, rfl⟩ := hs k hkk
    have hnot : twoSegment (47 :: t) ∉ keys.filter isShortKey := by
      intro hc
      have h1 := (List.mem_filter.mp hc).2
      rw [twoSegment_not_short t hlong2] at h1
      exact absurd h1 (by simp)
    have hin : (47 :: t : Bytes) ∈ keyGroup keys (twoSegment (47 :: t)) :=
      (mem_keyGroup _ _ _).mpr ⟨hkk, hlong2, rfl⟩
    unfold printEntry specRender
    simp only [hget, hnot, if_false, List.length_map]
    rcases hg : keyGroup keys (twoSegment (47 :: t)) with _ | ⟨k1, _ | ⟨k2, r⟩⟩
    · rw [hg] at hin; exact absurd hin (by simp)
    · have hk1 : k1 ∈ keyGroup keys (twoSegment (47 :: t)) := by rw [hg]; simp
      obtain ⟨hk1k, hk1l, hk1t⟩ := (mem_keyGroup _ _ _).mp hk1
      obtain ⟨t1, rfl⟩ := hs k1 hk1k
      have := twoSegment_append_drop t1 hk1l
      rw [hk1t] at this
      simp [this]
    · simp [printSuffixes_zero]

/-- C8 as amended: for keys that each start with `/` and contain neither a tab nor a NUL
byte, the summary `logStream` prints from their `group_concat` is the summary of the
specification: the
short keys and the distinct two-segment heads in ascending order, separated by `, `, a
head shared by several keys rendered as `head{suffix1, suffix2, ...}` with the suffixes
in input order and a head with a single key as that key; whatever order the Go map is
ranged in. -/
theorem logStream_summary (mapOrder : List Bytes → List Bytes)
    (hperm : ∀ l, (mapOrder l).Perm l) (keys : List Bytes)
    (hslash : ∀ k ∈ keys, k.head? = some 47) (htab : ∀ k ∈ keys, 9 ∉ k)
    (hnul : ∀ k ∈ keys, 0 ∉ k) :
    logSummary mapOrder (groupConcat keys) = specSummary keys := by
  rw [groupConcat_of_no_nul keys hnul]
  have hs : ∀ k ∈ keys, ∃ t, k = 47 :: t := by
    intro k hk
    have h := hslash k hk
    cases k with
    | nil => simp at h
    | cons c t =>
      simp only [List.head?_cons, Option.some.injEq] at h
      exact ⟨t, by rw [h]⟩
  by_cases hne : keys = []
  · subst hne
    have h0 : mapOrder [] = [] := (hperm []).eq_nil
    simp [logSummary, splitByte, groupStep, h0, printEntries, printEntry,
      mapGet, specSummary, specEntries, List.intercalate]
  · unfold logSummary specSummary
    simp only [splitByte_intercalate keys hne htab]
    have hsorted : ((keys.foldl groupStep ([], [])).1 ++
        mapOrder ((keys.foldl groupStep ([], [])).2.map Prod.fst)).insertionSort
          (fun a b => bytesLe a b = true) = specEntries keys := by
      unfold specEntries
      apply insertionSort_bytesLe_of_perm
      rw [foldl_groupStep_fst keys hs]
      simp only [List.nil_append]
      apply List.Perm.append_left
      refine (hperm _).trans ?_
      rw [List.perm_ext_iff_of_nodup
        (foldl_groupStep_nodup keys hs ([], []) (by simp)) (List.nodup_dedup _)]
      intro p
      rw [foldl_groupStep_mem keys hs ([], []) p, List.mem_dedup]
      simp only [List.map_nil, List.not_mem_nil, false_or, List.mem_map, List.mem_filter,
        Bool.not_eq_true']
      constructor
      · rintro ⟨k, hk, hl, ht⟩
        exact ⟨k, ⟨hk, hl⟩, ht⟩
      · rintro ⟨k, ⟨hk, hl⟩, ht⟩
        exact ⟨k, hk, hl, ht⟩
    rw [hsorted, printEntries_zero]
    congr 1
    apply List.map_congr_left
    intro e he
    exact printEntry_eq_specRender keys hs e he

/-- Witness of the amended C8 at the keys `/cdb/node/1`, `/cdb/node/2`, `/cdb/other/3`. -/
theorem logStream_summary_witness :
    logSummary List.reverse (groupConcat cdbKeys) = specSummary cdbKeys ∧
    specSummary cdbKeys = ascii "/cdb/node/\x7b1, 2\x7d, /cdb/other/3" :=
  ⟨logStream_summary List.reverse (fun l => List.reverse_perm l) cdbKeys
    (by decide) (by decide) (by decide), by decide⟩

/-- C8 fails on a key that contains a tab and on a key that contains a NUL byte:
`logStream` splits the `group_concat` of the single key `/a<tab>b` into the two keys `/a`
and `b`, and of the keys `/a<NUL>b/c/d` and `/q` it reads `/a` only. -/
theorem logStream_summary_splits_tab_key :
    logSummary id (groupConcat [ascii "/a\tb"]) = ascii "/a, b" ∧
    specSummary [ascii "/a\tb"] = ascii "/a\tb" ∧
    logSummary id (groupConcat [ascii "/a\tb"]) ≠ specSummary [ascii "/a\tb"] ∧
    logSummary id (groupConcat nulKeys) = ascii "/a" ∧
    specSummary nulKeys = [47, 97, 0, 98, 47, 99, 47, 100] ++ ascii ", /q" ∧
    logSummary id (groupConcat nulKeys) ≠ specSummary nulKeys := by
  decide
